import Mathlib

/-!
# Verification of the quick-notes cache and indexing layer

Shallow embedding of `src/quick_notes/utils.py` (class `Cache`): note parsing
(`extract_note_name`, `extract_note_tags`), the canonical name-to-path mapping
(`get_note_path_for_note_name`), and the index mutations (`cache_note`,
`uncache_note`).

Python strings are modelled as `String`, with the needed operations
(`str.strip`, `str.lstrip`, `str.split`, `str.lower`, `str.startswith`,
`readline`) re-implemented by structural recursion over `List Char` so that
everything evaluates by `decide`.  Python `dict` is an association list
(first binding wins, as Python keys are unique), `set` a duplicate-free list,
and `defaultdict(set)` an association list read through a `[]` default.
Exceptions (`NoteFormatError`, `KeyError`) are explicit values; because
Python mutates the maps in place, an operation that raises still returns the
partially mutated state it leaves behind.
-/

/-- Whitespace test used by Python `str.strip` / `str.split` (ASCII range). -/
def isWs (c : Char) : Bool :=
  c = ' ' || c = '\t' || c = '\n' || c = '\r' || c = '\x0b' || c = '\x0c'

/-- Split a character list at newline characters (the lines a repeated
Python `readline` yields, minus the terminators, which every caller strips
or splits away anyway). -/
def chLines : List Char → List (List Char)
  | [] => [[]]
  | c :: cs =>
    if c = '\n' then [] :: chLines cs
    else
      match chLines cs with
      | [] => [[c]]
      | l :: ls => (c :: l) :: ls

/-- The `i`-th line of a file content (`readline` called `i + 1` times);
missing lines read as empty, as `readline` returns `""` at end of file. -/
def getLine (content : String) (i : Nat) : List Char :=
  (chLines content.data).getD i []

/-- Python `str.strip()`: drop surrounding whitespace. -/
def chStrip (cs : List Char) : List Char :=
  ((cs.dropWhile isWs).reverse.dropWhile isWs).reverse

/-- Python `s.startswith(p)`: prefix test. -/
def chStartsWith : List Char → List Char → Bool
  | _, [] => true
  | [], _ :: _ => false
  | c :: cs, p :: ps => c = p && chStartsWith cs ps

/-- Python `str.split()` (no argument): split on whitespace runs, dropping
empty pieces. -/
def chSplitWs : List Char → List (List Char)
  | [] => []
  | c :: cs =>
    if isWs c then chSplitWs cs
    else
      match chSplitWs cs with
      | [] => [[c]]
      | w :: ws =>
        match cs with
        | [] => [[c]]
        | d :: _ => if isWs d then [c] :: w :: ws else (c :: w) :: ws

/-- Python `str.lower()` on the ASCII range the note names use. -/
def chLower (c : Char) : Char :=
  if 'A' ≤ c && c ≤ 'Z' then Char.ofNat (c.toNat + 32) else c

/-- Join character-list words with a separator (Python `sep.join(words)`). -/
def chJoin (sep : List Char) : List (List Char) → List Char
  | [] => []
  | [w] => w
  | w :: ws => w ++ sep ++ chJoin sep ws

/-- The two configuration values the cache reads (`note.location` and
`note.file_ext`). -/
structure Config where
  noteLocation : String
  noteFileExt : String
deriving DecidableEq, Repr

/-- Python `pathlib.Path(dir) / file` rendered as a string; `pathlib` normalises a
bare `"."` directory away, so the joined path is then just the file name. -/
def joinPath (dir file : String) : String :=
  if dir = "." then file else dir ++ "/" ++ file

/-- Python `Cache.get_note_path_for_note_name`: the canonical path for a name is the
name lowercased, whitespace-split, joined by underscores, with the configured
extension, inside the configured note directory. -/
def get_note_path_for_note_name (cfg : Config) (note_name : String) : String :=
  let note_file : List Char :=
    chJoin ['_'] (chSplitWs (note_name.data.map chLower)) ++ '.' :: cfg.noteFileExt.data
  joinPath cfg.noteLocation (String.mk note_file)

/-- The exceptions the cache can raise: `NoteFormatError` from parsing, and
`KeyError` from `del d[k]` on a missing key or `set.remove` of a missing
element. -/
inductive CacheError where
  | format (msg : String)
  | keyError
deriving DecidableEq, Repr

/-- Python `Cache.extract_note_name`: the first line must start (after stripping
surrounding whitespace) with `##`; the name is `l.lstrip('#').strip()` —
Python `lstrip('##')` treats its argument as a character set, so it removes
every leading `#`. -/
def extract_note_name (content : String) : Except CacheError String :=
  let l := getLine content 0
  if !(chStartsWith (chStrip l) ['#', '#']) then
    .error (.format ("first line does not start with .."))
  else
    .ok (String.mk (chStrip (l.dropWhile (· = '#'))))

/-- Python `Cache.extract_note_tags`: re-checks the first line, then the second line
must start (after stripping) with `#`; tags are `[t[1:].strip() for t in
l.split()]` — the first character of every whitespace-separated token is
dropped, whatever it is. -/
def extract_note_tags (content : String) : Except CacheError (List String) :=
  let l1 := getLine content 0
  if !(chStartsWith (chStrip l1) ['#', '#']) then
    .error (.format ("first line does not start with .."))
  else
    let l2 := getLine content 1
    if !(chStartsWith (chStrip l2) ['#']) then
      .error (.format ("second line does not start with .., should be tags"))
    else
      .ok ((chSplitWs l2).map (fun t => String.mk (chStrip (t.drop 1))))

/-- A Python `dict` lookup (`d.get(k)` / `k in d`). -/
def alookup {V : Type} (l : List (String × V)) (k : String) : Option V :=
  match l with
  | [] => none
  | (k₁, v) :: rest => if k₁ = k then some v else alookup rest k

/-- A Python `dict` assignment `d[k] = v`: replace in place, else append. -/
def ainsert {V : Type} (l : List (String × V)) (k : String) (v : V) :
    List (String × V) :=
  match l with
  | [] => [(k, v)]
  | (k₁, v₁) :: rest =>
    if k₁ = k then (k, v) :: rest else (k₁, v₁) :: ainsert rest k v

/-- Python `del d[k]` once `k in d` is known to hold. -/
def aerase {V : Type} (l : List (String × V)) (k : String) : List (String × V) :=
  match l with
  | [] => []
  | (k₁, v₁) :: rest => if k₁ = k then rest else (k₁, v₁) :: aerase rest k

/-- Python `set.add`: a no-op on a present element. -/
def setAdd (s : List String) (x : String) : List String :=
  if x ∈ s then s else s ++ [x]

/-- Python `set.remove`: raises `KeyError` when the element is absent. -/
def setRemove (s : List String) (x : String) : List String × Option CacheError :=
  if x ∈ s then (s.erase x, none) else (s, some .keyError)

/-- A note's index entry: `dict(name=..., tags=...)`. -/
structure NoteEntry where
  name : String
  tags : List String
deriving DecidableEq, Repr

/-- The in-memory index: `names` (name → path), `tags`
(tag → set of paths, a `defaultdict(set)` read through a `[]` default), and
`notes` (path → entry). -/
structure Cache where
  names : List (String × String)
  tags : List (String × List String)
  notes : List (String × NoteEntry)
deriving DecidableEq, Repr

/-- The index state right after construction, before any note is cached. -/
def emptyCache : Cache := ⟨[], [], []⟩

/-- The tag map read through the `defaultdict(set)` default. -/
def tagSet (tags : List (String × List String)) (t : String) : List String :=
  (alookup tags t).getD []

/-- Python `self.notes.get(p, {}).get('tags', [])`: a note entry's tag list,
read as an empty list when the path is not indexed. -/
def noteTags (notes : List (String × NoteEntry)) (p : String) : List String :=
  ((alookup notes p).map NoteEntry.tags).getD []

/-- The loop `for tag in tags: self.tags[tag].remove(str(note))` of
`uncache_note`: stops at the first `KeyError`, returning the partially
mutated map (the `defaultdict` access inserts the key even then). -/
def removeFromTags (tags : List (String × List String)) (ts : List String)
    (p : String) : List (String × List String) × Option CacheError :=
  match ts with
  | [] => (tags, none)
  | t :: rest =>
    match setRemove (tagSet tags t) p with
    | (s, none) => removeFromTags (ainsert tags t s) rest p
    | (s, some e) => (ainsert tags t s, some e)

/-- Python `Cache.uncache_note`: a no-op when the path is not in `notes`; otherwise
`del self.names[name]` (a `KeyError` when absent), then each tag's path-set
removal (a `KeyError` when the path is absent from the set), then
`del self.notes[path]`.  An error leaves the mutations already applied. -/
def uncache_note (c : Cache) (note : String) : Cache × Option CacheError :=
  match alookup c.notes note with
  | none => (c, none)
  | some entry =>
    match alookup c.names entry.name with
    | none => (c, some .keyError)
    | some _ =>
      match removeFromTags c.tags entry.tags note with
      | (tags₁, some e) =>
        ({ c with names := aerase c.names entry.name, tags := tags₁ }, some e)
      | (tags₁, none) =>
        ({ names := aerase c.names entry.name, tags := tags₁,
           notes := aerase c.notes note }, none)

/-- The loop diffing previous tags against fresh ones in `cache_note`:
`for prev_tag in prev_tags: if prev_tag not in tags:
self.tags[prev_tag].remove(str(new_note))`. -/
def diffTags (tagsMap : List (String × List String)) (prev_tags tags : List String)
    (p : String) : List (String × List String) × Option CacheError :=
  match prev_tags with
  | [] => (tagsMap, none)
  | pt :: rest =>
    if pt ∈ tags then diffTags tagsMap rest tags p
    else
      match setRemove (tagSet tagsMap pt) p with
      | (s, none) => diffTags (ainsert tagsMap pt s) rest tags p
      | (s, some e) => (ainsert tagsMap pt s, some e)

/-- The loop `for tag in tags: self.tags[tag].add(str(new_note))`. -/
def addTags (tagsMap : List (String × List String)) (ts : List String)
    (p : String) : List (String × List String) :=
  match ts with
  | [] => tagsMap
  | t :: rest => addTags (ainsert tagsMap t (setAdd (tagSet tagsMap t) p)) rest p

/-- The filesystem the cache syncs against: path → file content. -/
abbrev FS : Type := List (String × String)

deriving instance DecidableEq for Except

/-- Python `pathlib.Path.rename`: the content moves to the destination path,
silently replacing any file already there. -/
def fsRename (fs : FS) (old new : String) (content : String) : FS :=
  ainsert (aerase fs old) new content

/-- The outcome of a `cache_note` call: the index and filesystem it leaves
behind, the exception if one was raised, and the returned path (`None` when
the file was missing or an exception escaped). -/
structure CNResult where
  cache : Cache
  fs : FS
  err : Option CacheError
  ret : Option String
deriving DecidableEq, Repr

/-- The tail of `cache_note` after parsing and any rename: set
`names[name] = new_note`, diff the new path's previous tags against the
fresh ones, add the fresh ones, store the entry, return the path. -/
def cacheNoteUpdate (c : Cache) (fs : FS) (note_name : String)
    (tags : List String) (new_note : String) : CNResult :=
  match diffTags c.tags (noteTags c.notes new_note) tags new_note with
  | (tags₁, some e) =>
    ⟨{ c with names := ainsert c.names note_name new_note, tags := tags₁ },
      fs, some e, none⟩
  | (tags₁, none) =>
    ⟨{ names := ainsert c.names note_name new_note,
       tags := addTags tags₁ tags new_note,
       notes := ainsert c.notes new_note ⟨note_name, tags⟩ }, fs, none, some new_note⟩

/-- Python `Cache.cache_note`: a missing file is an implicit `uncache_note`; a
format error from parsing propagates with nothing mutated; otherwise the
file is renamed to the canonical path when it is not already there (and the
old path uncached), then the index is updated at the canonical path. -/
def cache_note (cfg : Config) (c : Cache) (fs : FS) (note : String) : CNResult :=
  match alookup fs note with
  | none =>
    match uncache_note c note with
    | (c₁, e) => ⟨c₁, fs, e, none⟩
  | some content =>
    match extract_note_name content with
    | .error e => ⟨c, fs, some e, none⟩
    | .ok note_name =>
      match extract_note_tags content with
      | .error e => ⟨c, fs, some e, none⟩
      | .ok tags =>
        let new_note := get_note_path_for_note_name cfg note_name
        if new_note ≠ note then
          let fs₁ := fsRename fs note new_note content
          match uncache_note c note with
          | (c₁, some e) => ⟨c₁, fs₁, some e, none⟩
          | (c₁, none) => cacheNoteUpdate c₁ fs₁ note_name tags new_note
        else
          cacheNoteUpdate c fs note_name tags new_note

/-! ## Association-list and set lemmas -/

theorem alookup_ainsert_self {V : Type} (l : List (String × V)) (k : String) (v : V) :
    alookup (ainsert l k v) k = some v := by
  induction l with
  | nil => simp [ainsert, alookup]
  | cons hd tl ih =>
    obtain ⟨k₁, v₁⟩ := hd
    by_cases h : k₁ = k
    · simp [ainsert, alookup, h]
    · simp [ainsert, alookup, h, ih]

theorem alookup_ainsert_ne {V : Type} (l : List (String × V)) {k k₁ : String} (v : V)
    (h : k₁ ≠ k) : alookup (ainsert l k v) k₁ = alookup l k₁ := by
  have h' : k ≠ k₁ := Ne.symm h
  induction l with
  | nil => simp [ainsert, alookup, h']
  | cons hd tl ih =>
    obtain ⟨k₂, v₂⟩ := hd
    by_cases h₂ : k₂ = k
    · subst h₂
      simp [ainsert, alookup, h']
    · simp [ainsert, alookup, h₂, ih]

theorem ainsert_eq_self {V : Type} {l : List (String × V)} {k : String} {v : V}
    (h : alookup l k = some v) : ainsert l k v = l := by
  induction l with
  | nil => simp [alookup] at h
  | cons hd tl ih =>
    obtain ⟨k₁, v₁⟩ := hd
    by_cases h₁ : k₁ = k
    · subst h₁
      simp [alookup] at h
      simp [ainsert, h]
    · simp [alookup, h₁] at h
      simp [ainsert, h₁, ih h]

theorem alookup_aerase_ne {V : Type} (l : List (String × V)) {k k₁ : String}
    (h : k₁ ≠ k) : alookup (aerase l k) k₁ = alookup l k₁ := by
  induction l with
  | nil => simp [aerase]
  | cons hd tl ih =>
    obtain ⟨k₂, v₂⟩ := hd
    by_cases h₂ : k₂ = k
    · subst h₂
      simp [aerase, alookup, Ne.symm h]
    · simp [aerase, alookup, h₂, ih]

theorem alookup_eq_none_of_not_mem {V : Type} {l : List (String × V)} {k : String}
    (h : k ∉ l.map Prod.fst) : alookup l k = none := by
  induction l with
  | nil => simp [alookup]
  | cons hd tl ih =>
    obtain ⟨k₁, v₁⟩ := hd
    have h₁ : k₁ ≠ k := by
      intro hh
      exact h (by simp [hh])
    have h₂ : k ∉ tl.map Prod.fst := by
      intro hh
      exact h (by simp [hh])
    simp [alookup, h₁, ih h₂]

theorem alookup_aerase_self {V : Type} {l : List (String × V)} {k : String}
    (hnd : (l.map Prod.fst).Nodup) : alookup (aerase l k) k = none := by
  induction l with
  | nil => simp [aerase, alookup]
  | cons hd tl ih =>
    obtain ⟨k₁, v₁⟩ := hd
    simp at hnd
    by_cases h₁ : k₁ = k
    · subst h₁
      have hmem : k₁ ∉ tl.map Prod.fst := by
        intro hh
        obtain ⟨pr, hpr, hfst⟩ := List.mem_map.mp hh
        exact hnd.1 pr.2 (by simpa [← hfst] using hpr)
      simp [aerase, alookup_eq_none_of_not_mem hmem]
    · simp [aerase, alookup, h₁, ih hnd.2]

theorem mem_of_alookup_eq_some {V : Type} {l : List (String × V)} {k : String} {v : V}
    (h : alookup l k = some v) : (k, v) ∈ l := by
  induction l with
  | nil => simp [alookup] at h
  | cons hd tl ih =>
    obtain ⟨k₁, v₁⟩ := hd
    by_cases h₁ : k₁ = k
    · subst h₁
      simp [alookup] at h
      simp [h]
    · simp [alookup, h₁] at h
      simp [ih h]

theorem mem_ainsert {V : Type} {l : List (String × V)} {k : String} {v : V}
    {pr : String × V} (h : pr ∈ ainsert l k v) : pr = (k, v) ∨ pr ∈ l := by
  induction l with
  | nil =>
    simp [ainsert] at h
    exact Or.inl h
  | cons hd tl ih =>
    obtain ⟨k₁, v₁⟩ := hd
    by_cases h₁ : k₁ = k
    · simp [ainsert, h₁] at h
      rcases h with h | h
      · exact Or.inl h
      · exact Or.inr (List.mem_cons_of_mem _ h)
    · simp [ainsert, h₁] at h
      rcases h with h | h
      · exact Or.inr (by simp [h])
      · rcases ih h with h₂ | h₂
        · exact Or.inl h₂
        · exact Or.inr (List.mem_cons_of_mem _ h₂)

theorem mem_aerase {V : Type} {l : List (String × V)} {k : String}
    {pr : String × V} (h : pr ∈ aerase l k) : pr ∈ l := by
  induction l with
  | nil => simp [aerase] at h
  | cons hd tl ih =>
    obtain ⟨k₁, v₁⟩ := hd
    by_cases h₁ : k₁ = k
    · simp [aerase, h₁] at h
      exact List.mem_cons_of_mem _ h
    · simp [aerase, h₁] at h
      rcases h with h | h
      · simp [h]
      · exact List.mem_cons_of_mem _ (ih h)

theorem tagSet_ainsert_self (m : List (String × List String)) (k : String)
    (v : List String) : tagSet (ainsert m k v) k = v := by
  simp [tagSet, alookup_ainsert_self]

theorem tagSet_ainsert_ne (m : List (String × List String)) {k t : String}
    (v : List String) (h : t ≠ k) : tagSet (ainsert m k v) t = tagSet m t := by
  simp [tagSet, alookup_ainsert_ne m v h]

theorem mem_setAdd_self (s : List String) (x : String) : x ∈ setAdd s x := by
  unfold setAdd
  by_cases h : x ∈ s <;> simp [h]

theorem mem_setAdd {s : List String} {x y : String} (h : y ∈ setAdd s x) :
    y = x ∨ y ∈ s := by
  unfold setAdd at h
  by_cases h₁ : x ∈ s
  · simp [h₁] at h
    exact Or.inr h
  · simp [h₁] at h
    tauto

theorem setAdd_eq_of_mem {s : List String} {x : String} (h : x ∈ s) :
    setAdd s x = s := by
  simp [setAdd, h]

/-! ## Parsing facts -/

theorem extract_note_name_error_imp {content : String} {e : CacheError}
    (h : extract_note_name content = .error e) : extract_note_tags content = .error e := by
  unfold extract_note_name at h
  unfold extract_note_tags
  cases hb : chStartsWith (chStrip (getLine content 0)) ['#', '#'] with
  | false =>
    simp [hb] at h ⊢
    exact h
  | true => simp [hb] at h

theorem extract_note_tags_error_format {content : String} {e : CacheError}
    (h : extract_note_tags content = .error e) : ∃ msg, e = CacheError.format msg := by
  unfold extract_note_tags at h
  cases hb : chStartsWith (chStrip (getLine content 0)) ['#', '#'] with
  | false =>
    simp [hb] at h
    exact ⟨_, h.symm⟩
  | true =>
    cases hb₂ : chStartsWith (chStrip (getLine content 1)) ['#'] with
    | false =>
      simp [hb, hb₂] at h
      exact ⟨_, h.symm⟩
    | true => simp [hb, hb₂] at h

/-! ## Concrete scenario data -/

/-- The configuration the scenarios in the specification use: notes stored
flat in the working directory with extension `md` (so the canonical path of
a note is just its file name). -/
def cfgStd : Config := ⟨".", "md"⟩

def contentShopping : String := "## Shopping List\n#errands #home\nBuy milk\n"

def pathTmp : String := "tmp.md"

def fsShopping : FS := [(pathTmp, contentShopping)]

def contentNoMarker : String := "no marker here\n"

def fsNoMarker : FS := [(pathTmp, contentNoMarker)]

/-- A first line with three leading hash marks. -/
def contentExtraHash : String := "### Foo\n#t\n"

/-- A tag line whose second token does not carry the tag marker. -/
def contentBareToken : String := "## X\n#a b\n"

/-- A well-formed note whose tag line repeats a tag. -/
def contentDupTag : String := "## X\n#a #a\nbody\n"

def pathX : String := "x.md"

def fsDupTag : FS := [(pathX, contentDupTag)]

/-- The index state reached by caching the duplicate-tag note from an empty
index (its canonical path is its current path, so no rename happens). -/
def dupTagCache : Cache := (cache_note cfgStd emptyCache fsDupTag pathX).cache

/-! ## Claim theorems: C2, C3, C4, C5, C8 -/

/-- Claim C2: `uncache_note` must never raise for missing keys it is about
to remove, and after it runs nothing may reference the path.  The code
violates this: caching the well-formed duplicate-tag note succeeds, and the
subsequent `uncache_note` raises `KeyError` (the second `set.remove` of the
same path fails) and returns with `notes` still holding the path. -/
theorem C2_uncache_note_raises :
    (cache_note cfgStd emptyCache fsDupTag pathX).err = none ∧
    (uncache_note dupTagCache pathX).2 = some CacheError.keyError ∧
    alookup (uncache_note dupTagCache pathX).1.notes pathX ≠ none := by decide

/-- Name extraction exactly as claim C3 words it: fail precisely when the
first line does not begin with the two-character marker, otherwise return
the remainder of the line after the two marker characters with surrounding
whitespace stripped. -/
def extract_note_name_claimed (content : String) : Except CacheError String :=
  let l := getLine content 0
  if chStartsWith l ['#', '#'] then .ok (String.mk (chStrip (l.drop 2)))
  else .error (.format ("missing name marker"))

/-- Claim C3 counterexample: on a first line with three leading hash marks
the code strips them all — Python `lstrip` treats its argument as a
character set — returning "Foo" where the claim requires "# Foo". -/
theorem C3_counterexample :
    extract_note_name contentExtraHash = .ok ("Foo") ∧
    extract_note_name_claimed contentExtraHash = .ok ("# Foo") ∧
    extract_note_name contentExtraHash ≠ extract_note_name_claimed contentExtraHash := by
  decide

/-- Name extraction as amended: the marker check runs on the
whitespace-stripped first line, and on success every leading hash character
of the raw line is removed before the surrounding whitespace is stripped. -/
def extract_note_name_amended (content : String) : Except CacheError String :=
  let l := getLine content 0
  if chStartsWith (chStrip l) ['#', '#'] then
    .ok (String.mk (chStrip (l.dropWhile (· = '#'))))
  else
    .error (.format ("first line does not start with .."))

/-- Claim C3 (amended): name extraction fails exactly when the stripped
first line does not start with the two-character marker, and otherwise
returns the line with all leading hash characters removed, stripped. -/
theorem C3_name_extraction (content : String) :
    extract_note_name content = extract_note_name_amended content := by
  unfold extract_note_name extract_note_name_amended
  cases hb : chStartsWith (chStrip (getLine content 0)) ['#', '#'] <;> simp [hb]

/-- Tag extraction exactly as claim C4 words it: fail precisely when the
second line does not begin with the one-character marker, otherwise split
the line on whitespace and strip the marker character from each token,
taking tokens without the marker as they are. -/
def extract_note_tags_claimed (content : String) : Except CacheError (List String) :=
  let l := getLine content 1
  if chStartsWith l ['#'] then
    .ok ((chSplitWs l).map
      (fun t => String.mk (if chStartsWith t ['#'] then t.drop 1 else t)))
  else .error (.format ("missing tag marker"))

/-- Claim C4 counterexample: the code drops the first character of every
token whatever it is (`t[1:]`), so the markerless token "b" becomes "",
where the claim keeps it as "b". -/
theorem C4_counterexample :
    extract_note_name contentBareToken = .ok ("X") ∧
    extract_note_tags contentBareToken = .ok ["a", ""] ∧
    extract_note_tags_claimed contentBareToken = .ok ["a", "b"] ∧
    extract_note_tags contentBareToken ≠ extract_note_tags_claimed contentBareToken := by
  decide

/-- Tag extraction as amended: both marker checks run on stripped lines,
and each whitespace-separated token loses its first character — whatever
that character is — before being stripped. -/
def extract_note_tags_amended (content : String) : Except CacheError (List String) :=
  if chStartsWith (chStrip (getLine content 0)) ['#', '#'] then
    if chStartsWith (chStrip (getLine content 1)) ['#'] then
      .ok ((chSplitWs (getLine content 1)).map (fun t => String.mk (chStrip (t.drop 1))))
    else .error (.format ("second line does not start with .., should be tags"))
  else .error (.format ("first line does not start with .."))

/-- Claim C4 (amended): tag extraction fails exactly when the stripped
second line does not start with the marker (given a well-formed first
line), and otherwise returns the whitespace-split tokens each with its
first character dropped, with no de-duplication or validation. -/
theorem C4_tag_extraction (content : String) :
    extract_note_tags content = extract_note_tags_amended content := by
  unfold extract_note_tags extract_note_tags_amended
  cases hb : chStartsWith (chStrip (getLine content 0)) ['#', '#'] <;>
    cases hb₂ : chStartsWith (chStrip (getLine content 1)) ['#'] <;> simp [hb, hb₂]

/-- Claim C5: on an existing file whose content fails parsing, `cache_note`
propagates the format error and leaves the index and the filesystem exactly
unchanged. -/
theorem C5_format_error_no_mutation (cfg : Config) (c : Cache) (fs : FS)
    (p content : String) (e : CacheError)
    (hfs : alookup fs p = some content)
    (hbad : extract_note_tags content = .error e) :
    cache_note cfg c fs p = ⟨c, fs, some e, none⟩ ∧
      ∃ msg, e = CacheError.format msg := by
  refine ⟨?_, extract_note_tags_error_format hbad⟩
  cases hn : extract_note_name content with
  | error e₁ =>
    have h₂ := extract_note_name_error_imp hn
    rw [hbad] at h₂
    injection h₂ with h₃
    subst h₃
    simp [cache_note, hfs, hn]
  | ok N =>
    simp [cache_note, hfs, hn, hbad]

/-- Claim C5 witness: the scenario content with no marker, indexed into an
empty index, raises the format error and leaves everything empty. -/
theorem C5_format_error_no_mutation_witness :
    cache_note cfgStd emptyCache fsNoMarker pathTmp =
      ⟨emptyCache, fsNoMarker,
        some (CacheError.format ("first line does not start with ..")), none⟩ ∧
    ∃ msg, CacheError.format ("first line does not start with ..") =
      CacheError.format msg :=
  C5_format_error_no_mutation cfgStd emptyCache fsNoMarker pathTmp contentNoMarker
    (CacheError.format ("first line does not start with .."))
    (by decide) (by decide)

/-- Claim C8 counterexample: with the duplicate-tag note indexed and its
file deleted outside the tool, `cache_note` raises the removal's `KeyError`
instead of never raising as the claim states. -/
theorem C8_counterexample :
    (cache_note cfgStd emptyCache fsDupTag pathX).err = none ∧
    (cache_note cfgStd dupTagCache ([] : FS) pathX).err = some CacheError.keyError := by
  decide

/-- Claim C8 (amended): on a missing file `cache_note` behaves exactly like
`uncache_note` on that path — the same final index and the same error
outcome, if any — leaves the filesystem alone, and returns no path. -/
theorem C8_missing_file (cfg : Config) (c : Cache) (fs : FS) (p : String)
    (h : alookup fs p = none) :
    cache_note cfg c fs p = ⟨(uncache_note c p).1, fs, (uncache_note c p).2, none⟩ := by
  unfold cache_note
  rw [h]

/-- Claim C8 witness: the amended statement applied at the deleted
duplicate-tag note. -/
theorem C8_missing_file_witness :
    cache_note cfgStd dupTagCache ([] : FS) pathX =
      ⟨(uncache_note dupTagCache pathX).1, ([] : FS),
        (uncache_note dupTagCache pathX).2, none⟩ :=
  C8_missing_file cfgStd dupTagCache ([] : FS) pathX (by decide)

/-! ## Lemmas about the tag-map loops -/

theorem mem_tagSet_addTags_mono {m : List (String × List String)}
    {p t : String} (ts : List String) (h : p ∈ tagSet m t) :
    p ∈ tagSet (addTags m ts p) t := by
  induction ts generalizing m with
  | nil => simpa [addTags] using h
  | cons t₁ rest ih =>
    unfold addTags
    apply ih
    by_cases h₁ : t = t₁
    · subst h₁
      rw [tagSet_ainsert_self]
      exact mem_setAdd_self _ _
    · rwa [tagSet_ainsert_ne _ _ h₁]

theorem mem_tagSet_addTags_of_mem {m : List (String × List String)}
    {p t : String} {ts : List String} (h : t ∈ ts) :
    p ∈ tagSet (addTags m ts p) t := by
  induction ts generalizing m with
  | nil => cases h
  | cons t₁ rest ih =>
    unfold addTags
    rcases List.mem_cons.mp h with h₁ | h₁
    · subst h₁
      apply mem_tagSet_addTags_mono
      rw [tagSet_ainsert_self]
      exact mem_setAdd_self _ _
    · exact ih h₁

theorem addTags_eq_of_mem {m : List (String × List String)} {p : String}
    {ts : List String} (h : ∀ t ∈ ts, p ∈ tagSet m t) : addTags m ts p = m := by
  induction ts with
  | nil => rfl
  | cons t₁ rest ih =>
    have h₁ : p ∈ tagSet m t₁ := h t₁ (List.mem_cons_self _ _)
    have h₂ : alookup m t₁ = some (tagSet m t₁) := by
      unfold tagSet at h₁ ⊢
      cases hl : alookup m t₁ with
      | none => rw [hl] at h₁; cases h₁
      | some s => simp [hl]
    unfold addTags
    rw [setAdd_eq_of_mem h₁, ainsert_eq_self h₂]
    exact ih (fun t ht => h t (List.mem_cons_of_mem _ ht))

theorem mem_tagSet_addTags_inv {m : List (String × List String)}
    {p x t : String} {ts : List String}
    (h : x ∈ tagSet (addTags m ts p) t) : x = p ∨ x ∈ tagSet m t := by
  induction ts generalizing m with
  | nil => exact Or.inr (by simpa [addTags] using h)
  | cons t₁ rest ih =>
    unfold addTags at h
    rcases ih h with h₁ | h₁
    · exact Or.inl h₁
    · by_cases h₂ : t = t₁
      · subst h₂
        rw [tagSet_ainsert_self] at h₁
        rcases mem_setAdd h₁ with h₃ | h₃
        · exact Or.inl h₃
        · exact Or.inr h₃
      · rw [tagSet_ainsert_ne _ _ h₂] at h₁
        exact Or.inr h₁

theorem diffTags_eq_of_subset {m : List (String × List String)} {p : String}
    {prev tags : List String} (h : ∀ t ∈ prev, t ∈ tags) :
    diffTags m prev tags p = (m, none) := by
  induction prev with
  | nil => rfl
  | cons t₁ rest ih =>
    unfold diffTags
    rw [if_pos (h t₁ (List.mem_cons_self _ _))]
    exact ih (fun t ht => h t (List.mem_cons_of_mem _ ht))

theorem diffTags_ok {m : List (String × List String)} {p : String}
    {prev tags : List String} (hnd : prev.Nodup)
    (hmem : ∀ t ∈ prev, t ∉ tags → p ∈ tagSet m t) :
    (diffTags m prev tags p).2 = none ∧
    ∀ t, tagSet (diffTags m prev tags p).1 t =
      if t ∈ prev ∧ t ∉ tags then (tagSet m t).erase p else tagSet m t := by
  induction prev generalizing m with
  | nil =>
    refine ⟨rfl, fun t => ?_⟩
    simp [diffTags]
  | cons t₁ rest ih =>
    rcases List.nodup_cons.mp hnd with ⟨hnotin, hnd₁⟩
    by_cases h₁ : t₁ ∈ tags
    · have h₂ := ih hnd₁ (fun t ht h₃ => hmem t (List.mem_cons_of_mem _ ht) h₃)
      unfold diffTags
      rw [if_pos h₁]
      refine ⟨h₂.1, fun t => ?_⟩
      rw [h₂.2 t]
      by_cases h₃ : t = t₁
      · subst h₃
        simp [h₁]
      · simp [List.mem_cons, h₃]
    · have hp : p ∈ tagSet m t₁ := hmem t₁ (List.mem_cons_self _ _) h₁
      have hsr : setRemove (tagSet m t₁) p = ((tagSet m t₁).erase p, none) := by
        simp [setRemove, hp]
      have hmem₁ : ∀ t ∈ rest, t ∉ tags →
          p ∈ tagSet (ainsert m t₁ ((tagSet m t₁).erase p)) t := by
        intro t ht h₂
        have h₃ : t ≠ t₁ := fun hh => hnotin (hh ▸ ht)
        rw [tagSet_ainsert_ne _ _ h₃]
        exact hmem t (List.mem_cons_of_mem _ ht) h₂
      have h₂ := ih hnd₁ hmem₁
      unfold diffTags
      rw [if_neg h₁, hsr]
      refine ⟨h₂.1, fun t => ?_⟩
      rw [h₂.2 t]
      by_cases h₃ : t = t₁
      · subst h₃
        have h₄ : t ∉ rest := hnotin
        simp [h₄, h₁, tagSet_ainsert_self]
      · rw [tagSet_ainsert_ne _ _ h₃]
        simp [List.mem_cons, h₃]

theorem removeFromTags_eq_diffTags (m : List (String × List String))
    (ts : List String) (p : String) :
    removeFromTags m ts p = diffTags m ts [] p := by
  induction ts generalizing m with
  | nil => rfl
  | cons t₁ rest ih =>
    unfold removeFromTags diffTags
    rw [if_neg (List.not_mem_nil t₁)]
    cases hsr : setRemove (tagSet m t₁) p with
    | mk s e =>
      cases e with
      | none => exact ih _
      | some e₁ => rfl

theorem removeFromTags_ok {m : List (String × List String)} {p : String}
    {ts : List String} (hnd : ts.Nodup) (hmem : ∀ t ∈ ts, p ∈ tagSet m t) :
    (removeFromTags m ts p).2 = none ∧
    ∀ t, tagSet (removeFromTags m ts p).1 t =
      if t ∈ ts then (tagSet m t).erase p else tagSet m t := by
  rw [removeFromTags_eq_diffTags]
  have h := @diffTags_ok m p ts [] hnd (fun t ht _ => hmem t ht)
  refine ⟨h.1, fun t => ?_⟩
  rw [h.2 t]
  simp

/-! ## Shape of a successful cache_note -/

theorem cacheNoteUpdate_ok {c : Cache} {fs : FS} {N : String} {T : List String}
    {q : String} (hdiff : (diffTags c.tags (noteTags c.notes q) T q).2 = none) :
    cacheNoteUpdate c fs N T q =
      ⟨⟨ainsert c.names N q,
        addTags (diffTags c.tags (noteTags c.notes q) T q).1 T q,
        ainsert c.notes q ⟨N, T⟩⟩, fs, none, some q⟩ := by
  unfold cacheNoteUpdate
  cases hd : diffTags c.tags (noteTags c.notes q) T q with
  | mk tg e =>
    rw [hd] at hdiff
    cases e with
    | none => rfl
    | some e₁ => cases hdiff

theorem cacheNoteUpdate_err_none {c : Cache} {fs : FS} {N : String}
    {T : List String} {q : String}
    (h : (cacheNoteUpdate c fs N T q).err = none) :
    (diffTags c.tags (noteTags c.notes q) T q).2 = none := by
  unfold cacheNoteUpdate at h
  cases hd : diffTags c.tags (noteTags c.notes q) T q with
  | mk tg e =>
    rw [hd] at h
    cases e with
    | none => rfl
    | some e₁ => exact h

theorem cache_note_parsed_eq {cfg : Config} {c : Cache} {fs : FS}
    {p content N : String} {T : List String}
    (hfs : alookup fs p = some content)
    (hN : extract_note_name content = .ok N)
    (hT : extract_note_tags content = .ok T)
    (heq : get_note_path_for_note_name cfg N = p) :
    cache_note cfg c fs p = cacheNoteUpdate c fs N T p := by
  simp only [cache_note, hfs, hN, hT]
  rw [if_neg (fun h => h heq), heq]

theorem cache_note_parsed_ne {cfg : Config} {c : Cache} {fs : FS}
    {p content N : String} {T : List String} {c₁ : Cache}
    (hfs : alookup fs p = some content)
    (hN : extract_note_name content = .ok N)
    (hT : extract_note_tags content = .ok T)
    (hne : get_note_path_for_note_name cfg N ≠ p)
    (hu : uncache_note c p = (c₁, none)) :
    cache_note cfg c fs p =
      cacheNoteUpdate c₁ (fsRename fs p (get_note_path_for_note_name cfg N) content)
        N T (get_note_path_for_note_name cfg N) := by
  simp only [cache_note, hfs, hN, hT]
  rw [if_pos hne, hu]

theorem cache_note_parsed_ne_err {cfg : Config} {c : Cache} {fs : FS}
    {p content N : String} {T : List String} {c₁ : Cache} {e : CacheError}
    (hfs : alookup fs p = some content)
    (hN : extract_note_name content = .ok N)
    (hT : extract_note_tags content = .ok T)
    (hne : get_note_path_for_note_name cfg N ≠ p)
    (hu : uncache_note c p = (c₁, some e)) :
    cache_note cfg c fs p =
      ⟨c₁, fsRename fs p (get_note_path_for_note_name cfg N) content, some e, none⟩ := by
  simp only [cache_note, hfs, hN, hT]
  rw [if_pos hne, hu]

theorem cacheNoteUpdate_post {c : Cache} {fs : FS} {N : String}
    {T : List String} {q : String}
    (hok : (cacheNoteUpdate c fs N T q).err = none) :
    (cacheNoteUpdate c fs N T q).ret = some q ∧
    alookup (cacheNoteUpdate c fs N T q).cache.names N = some q ∧
    ∀ t ∈ T, q ∈ tagSet (cacheNoteUpdate c fs N T q).cache.tags t := by
  have hdiff := cacheNoteUpdate_err_none hok
  rw [cacheNoteUpdate_ok hdiff]
  exact ⟨rfl, alookup_ainsert_self _ _ _, fun t ht => mem_tagSet_addTags_of_mem ht⟩

/-! ## Claim C1 -/

/-- Claim C1: a successful `cache_note` on well-formed content with
first-line name N and second-line tags T leaves `names[N]` bound to the
resolved canonical path and that path a member of `tags[t]` for every t in
T, returning the resolved path. -/
theorem C1_round_trip (cfg : Config) (c : Cache) (fs : FS) (p content N : String)
    (T : List String)
    (hfs : alookup fs p = some content)
    (hN : extract_note_name content = .ok N)
    (hT : extract_note_tags content = .ok T)
    (hok : (cache_note cfg c fs p).err = none) :
    (cache_note cfg c fs p).ret = some (get_note_path_for_note_name cfg N) ∧
    alookup (cache_note cfg c fs p).cache.names N =
      some (get_note_path_for_note_name cfg N) ∧
    ∀ t ∈ T, get_note_path_for_note_name cfg N ∈
      tagSet (cache_note cfg c fs p).cache.tags t := by
  by_cases heq : get_note_path_for_note_name cfg N = p
  · rw [cache_note_parsed_eq hfs hN hT heq] at hok ⊢
    rw [heq]
    exact cacheNoteUpdate_post hok
  · cases hu : uncache_note c p with
    | mk c₁ e =>
      cases e with
      | some e₁ =>
        rw [cache_note_parsed_ne_err hfs hN hT heq hu] at hok
        cases hok
      | none =>
        rw [cache_note_parsed_ne hfs hN hT heq hu] at hok ⊢
        exact cacheNoteUpdate_post hok

/-- Claim C1 witness: the shopping-list scenario from an empty index; the
resolved canonical path evaluates to the file name shopping_list.md. -/
theorem C1_round_trip_witness :
    get_note_path_for_note_name cfgStd ("Shopping List") = ("shopping_list.md") ∧
    (cache_note cfgStd emptyCache fsShopping pathTmp).ret =
      some (get_note_path_for_note_name cfgStd ("Shopping List")) ∧
    alookup (cache_note cfgStd emptyCache fsShopping pathTmp).cache.names
      ("Shopping List") = some (get_note_path_for_note_name cfgStd ("Shopping List")) ∧
    ∀ t ∈ ["errands", "home"], get_note_path_for_note_name cfgStd ("Shopping List") ∈
      tagSet (cache_note cfgStd emptyCache fsShopping pathTmp).cache.tags t :=
  ⟨by decide,
    C1_round_trip cfgStd emptyCache fsShopping pathTmp contentShopping
      ("Shopping List") ["errands", "home"]
      (by decide) (by decide) (by decide) (by decide)⟩

/-! ## Inversion of a successful cache_note -/

theorem tagSet_addTags_not_mem {m : List (String × List String)} {p t : String}
    {ts : List String} (h : t ∉ ts) : tagSet (addTags m ts p) t = tagSet m t := by
  induction ts generalizing m with
  | nil => rfl
  | cons t₁ rest ih =>
    have h₁ : t ∉ rest := fun hh => h (List.mem_cons_of_mem _ hh)
    have h₂ : t ≠ t₁ := fun hh => h (hh ▸ List.mem_cons_self _ _)
    unfold addTags
    rw [ih h₁, tagSet_ainsert_ne _ _ h₂]

theorem cacheNoteUpdate_inv {c : Cache} {fs : FS} {N : String} {T : List String}
    {q : String} {c₁ : Cache} {fs₁ : FS} {r : String}
    (h : cacheNoteUpdate c fs N T q = ⟨c₁, fs₁, none, some r⟩) :
    r = q ∧ fs₁ = fs ∧
    (diffTags c.tags (noteTags c.notes q) T q).2 = none ∧
    c₁ = ⟨ainsert c.names N q,
          addTags (diffTags c.tags (noteTags c.notes q) T q).1 T q,
          ainsert c.notes q ⟨N, T⟩⟩ := by
  unfold cacheNoteUpdate at h
  cases hd : diffTags c.tags (noteTags c.notes q) T q with
  | mk tg e =>
    rw [hd] at h
    cases e with
    | some e₁ => simp at h
    | none =>
      simp only [CNResult.mk.injEq] at h
      obtain ⟨hc, hf, -, hr⟩ := h
      refine ⟨by injection hr.symm, hf.symm, rfl, hc.symm⟩

theorem cache_note_ret_inv {cfg : Config} {c c₁ : Cache} {fs fs₁ : FS}
    {p q : String} (h : cache_note cfg c fs p = ⟨c₁, fs₁, none, some q⟩) :
    ∃ (content N : String) (T : List String) (c₂ : Cache),
      extract_note_name content = .ok N ∧
      extract_note_tags content = .ok T ∧
      get_note_path_for_note_name cfg N = q ∧
      alookup fs₁ q = some content ∧
      (diffTags c₂.tags (noteTags c₂.notes q) T q).2 = none ∧
      c₁ = ⟨ainsert c₂.names N q,
            addTags (diffTags c₂.tags (noteTags c₂.notes q) T q).1 T q,
            ainsert c₂.notes q ⟨N, T⟩⟩ := by
  cases hfs : alookup fs p with
  | none =>
    simp only [cache_note, hfs] at h
    cases hu : uncache_note c p with
    | mk c₂ e =>
      rw [hu] at h
      simp at h
  | some content =>
    cases hn : extract_note_name content with
    | error e₁ =>
      simp only [cache_note, hfs, hn] at h
      simp at h
    | ok N =>
      cases ht : extract_note_tags content with
      | error e₁ =>
        simp only [cache_note, hfs, hn, ht] at h
        simp at h
      | ok T =>
        by_cases hne : get_note_path_for_note_name cfg N ≠ p
        · cases hu : uncache_note c p with
          | mk c₂ e =>
            cases e with
            | some e₁ =>
              rw [cache_note_parsed_ne_err hfs hn ht hne hu] at h
              simp at h
            | none =>
              rw [cache_note_parsed_ne hfs hn ht hne hu] at h
              obtain ⟨hr, hf, hd, hc⟩ := cacheNoteUpdate_inv h
              subst hr
              refine ⟨content, N, T, c₂, hn, ht, rfl, ?_, hd, hc⟩
              rw [hf]
              exact alookup_ainsert_self _ _ _
        · rw [not_not] at hne
          rw [cache_note_parsed_eq hfs hn ht hne] at h
          obtain ⟨hr, hf, hd, hc⟩ := cacheNoteUpdate_inv h
          subst hr
          refine ⟨content, N, T, c, hn, ht, hne, ?_, hd, hc⟩
          rw [hf]
          exact hfs

/-! ## Claim C9 -/

/-- Claim C9: `cache_note` is idempotent on an unmodified note — after a
successful first call, running it again on the returned canonical path
leaves the index and the filesystem exactly as they were. -/
theorem C9_idempotent (cfg : Config) (c c₁ : Cache) (fs fs₁ : FS) (p q : String)
    (h : cache_note cfg c fs p = ⟨c₁, fs₁, none, some q⟩) :
    cache_note cfg c₁ fs₁ q = ⟨c₁, fs₁, none, some q⟩ := by
  obtain ⟨content, N, T, c₂, hN, hT, hq, hfs₁, hdiff, hc₁⟩ := cache_note_ret_inv h
  rw [cache_note_parsed_eq hfs₁ hN hT hq]
  have hnotes : alookup c₁.notes q = some ⟨N, T⟩ := by
    rw [hc₁]
    exact alookup_ainsert_self _ _ _
  have hprev : noteTags c₁.notes q = T := by
    unfold noteTags
    rw [hnotes]
    rfl
  have hnames : alookup c₁.names N = some q := by
    rw [hc₁]
    exact alookup_ainsert_self _ _ _
  have hmem : ∀ t ∈ T, q ∈ tagSet c₁.tags t := by
    intro t ht
    rw [hc₁]
    exact mem_tagSet_addTags_of_mem ht
  have hdiff₂ : diffTags c₁.tags (noteTags c₁.notes q) T q = (c₁.tags, none) := by
    rw [hprev]
    exact diffTags_eq_of_subset (fun t ht => ht)
  rw [cacheNoteUpdate_ok (by rw [hdiff₂])]
  rw [hdiff₂]
  rw [ainsert_eq_self hnames, ainsert_eq_self hnotes, addTags_eq_of_mem hmem]

/-- The index state the shopping-list scenario produces. -/
def shoppingCache : Cache :=
  ⟨[("Shopping List", "shopping_list.md")],
   [("errands", ["shopping_list.md"]), ("home", ["shopping_list.md"])],
   [("shopping_list.md", ⟨"Shopping List", ["errands", "home"]⟩)]⟩

/-- The filesystem after the shopping-list note is renamed to its canonical
path. -/
def fsShoppingAfter : FS := [("shopping_list.md", contentShopping)]

def pathShopping : String := "shopping_list.md"

/-- Claim C9 witness: re-caching the freshly indexed shopping-list note
changes nothing. -/
theorem C9_idempotent_witness :
    cache_note cfgStd shoppingCache fsShoppingAfter pathShopping =
      ⟨shoppingCache, fsShoppingAfter, none, some pathShopping⟩ :=
  C9_idempotent cfgStd emptyCache shoppingCache fsShopping fsShoppingAfter
    pathTmp pathShopping (by decide)

/-! ## Claim C7 -/

/-- A retagged version of the duplicate-tag note. -/
def fsDupRetag : FS := [(pathX, "## X\n#b #c\n")]

/-- Claim C7 counterexample: the claim quantifies over previous tag lists
with repeated tags, but there the diff loop raises — the second
`set.remove` of the same path fails with `KeyError` — so the fresh tag "c"
never receives the path. -/
theorem C7_counterexample :
    (cache_note cfgStd emptyCache fsDupTag pathX).err = none ∧
    (cache_note cfgStd dupTagCache fsDupRetag pathX).err = some CacheError.keyError ∧
    pathX ∉ tagSet (cache_note cfgStd dupTagCache fsDupRetag pathX).cache.tags ("c") := by
  decide

/-- Claim C7 (amended): when `cache_note` re-indexes an already-indexed
path in place and the previous entry's tag list is duplicate-free, with
each of its tags' path sets a set containing the path, then every stale
tag loses the path, and every freshly parsed tag (including the retained
ones) has it. -/
theorem C7_tag_diff (cfg : Config) (c : Cache) (fs : FS) (p content N : String)
    (T : List String) (entry : NoteEntry)
    (hfs : alookup fs p = some content)
    (hN : extract_note_name content = .ok N)
    (hT : extract_note_tags content = .ok T)
    (heq : get_note_path_for_note_name cfg N = p)
    (hprev : alookup c.notes p = some entry)
    (hnd : entry.tags.Nodup)
    (hmem : ∀ t ∈ entry.tags, p ∈ tagSet c.tags t)
    (hsets : ∀ t ∈ entry.tags, (tagSet c.tags t).Nodup) :
    (cache_note cfg c fs p).err = none ∧
    (cache_note cfg c fs p).ret = some p ∧
    (∀ t ∈ entry.tags, t ∉ T → p ∉ tagSet (cache_note cfg c fs p).cache.tags t) ∧
    (∀ t ∈ T, p ∈ tagSet (cache_note cfg c fs p).cache.tags t) := by
  rw [cache_note_parsed_eq hfs hN hT heq]
  have hpt : noteTags c.notes p = entry.tags := by
    unfold noteTags
    rw [hprev]
    rfl
  have hd := @diffTags_ok c.tags p entry.tags T hnd (fun t ht _ => hmem t ht)
  rw [← hpt] at hd
  rw [cacheNoteUpdate_ok hd.1]
  refine ⟨rfl, rfl, ?_, fun t ht => mem_tagSet_addTags_of_mem ht⟩
  intro t ht hnotin
  rw [tagSet_addTags_not_mem hnotin, hd.2 t, hpt, if_pos ⟨ht, hnotin⟩]
  intro hmem₁
  exact absurd (((hsets t ht).mem_erase_iff).mp hmem₁).1 (by simp)

def pathN : String := "n.md"

def entryAB : NoteEntry := ⟨"N", ["a", "b"]⟩

/-- An index holding one note at its canonical path with tags {a, b}. -/
def cacheAB : Cache :=
  ⟨[("N", "n.md")], [("a", ["n.md"]), ("b", ["n.md"])], [("n.md", entryAB)]⟩

def contentBC : String := "## N\n#b #c\n"

def fsBC : FS := [("n.md", contentBC)]

/-- Claim C7 witness: retagging {a, b} to {b, c} drops the path from
`tags[a]`, keeps it in `tags[b]` and adds it to `tags[c]`. -/
theorem C7_tag_diff_witness :
    (cache_note cfgStd cacheAB fsBC pathN).err = none ∧
    (cache_note cfgStd cacheAB fsBC pathN).ret = some pathN ∧
    (∀ t ∈ entryAB.tags, t ∉ ["b", "c"] →
      pathN ∉ tagSet (cache_note cfgStd cacheAB fsBC pathN).cache.tags t) ∧
    (∀ t ∈ ["b", "c"], pathN ∈ tagSet (cache_note cfgStd cacheAB fsBC pathN).cache.tags t) :=
  C7_tag_diff cfgStd cacheAB fsBC pathN contentBC ("N") ["b", "c"] entryAB
    (by decide) (by decide) (by decide) (by decide) (by decide) (by decide)
    (by decide) (by decide)

/-! ## Consistency of an index state -/

/-- Full consistency of an index state: dict keys are unique (they are in
Python), every `names` binding is justified by a note entry carrying that
name, every tag-set member is justified by its note entry, every note entry
is fully indexed — its name bound in `names`, its tag list duplicate-free,
each of its tags' path sets holding the path — and tag path sets are
genuine sets. -/
def Consistent (c : Cache) : Prop :=
  (c.names.map Prod.fst).Nodup ∧
  (c.notes.map Prod.fst).Nodup ∧
  (∀ pr ∈ c.names, (alookup c.notes pr.2).map NoteEntry.name = some pr.1) ∧
  (∀ tp ∈ c.tags, ∀ p ∈ tp.2, tp.1 ∈ noteTags c.notes p) ∧
  (∀ pe ∈ c.notes, alookup c.names pe.2.name = some pe.1 ∧ pe.2.tags.Nodup ∧
     ∀ t ∈ pe.2.tags, pe.1 ∈ tagSet c.tags t) ∧
  (∀ tp ∈ c.tags, tp.2.Nodup)

instance (c : Cache) : Decidable (Consistent c) := by
  unfold Consistent
  infer_instance

theorem consistent_no_refs {c : Cache} {p : String} (hc : Consistent c)
    (h : alookup c.notes p = none) :
    (∀ n q, alookup c.names n = some q → q ≠ p) ∧
    (∀ t, p ∉ tagSet c.tags t) := by
  obtain ⟨-, -, hinv3, hinv4, -, -⟩ := hc
  constructor
  · intro n q hl hq
    subst hq
    have h₃ := hinv3 _ (mem_of_alookup_eq_some hl)
    rw [h] at h₃
    cases h₃
  · intro t hmem
    unfold tagSet at hmem
    cases hl : alookup c.tags t with
    | none => rw [hl] at hmem; cases hmem
    | some s =>
      rw [hl] at hmem
      have h₂ := hinv4 _ (mem_of_alookup_eq_some hl) p hmem
      unfold noteTags at h₂
      rw [h] at h₂
      cases h₂

theorem uncache_note_not_indexed {c : Cache} {p : String}
    (h : alookup c.notes p = none) : uncache_note c p = (c, none) := by
  unfold uncache_note
  rw [h]

theorem uncache_note_consistent_spec {c : Cache} {p : String} {e : NoteEntry}
    (hc : Consistent c) (h : alookup c.notes p = some e) :
    uncache_note c p =
      ({ names := aerase c.names e.name,
         tags := (removeFromTags c.tags e.tags p).1,
         notes := aerase c.notes p }, none) := by
  have h5 := hc.2.2.2.2.1 _ (mem_of_alookup_eq_some h)
  have hrt := removeFromTags_ok h5.2.1 h5.2.2
  simp only [uncache_note, h, h5.1]
  cases hr : removeFromTags c.tags e.tags p with
  | mk tg er =>
    rw [hr] at hrt
    cases er with
    | none => rfl
    | some e₁ => cases hrt.1

theorem uncache_clears {c : Cache} {p : String} {e : NoteEntry}
    (hc : Consistent c) (h : alookup c.notes p = some e) :
    (uncache_note c p).2 = none ∧
    alookup (uncache_note c p).1.notes p = none ∧
    (∀ n q, alookup (uncache_note c p).1.names n = some q → q ≠ p) ∧
    (∀ t, p ∉ tagSet (uncache_note c p).1.tags t) ∧
    (∀ q, q ≠ p → alookup (uncache_note c p).1.notes q = alookup c.notes q) ∧
    (∀ t, tagSet (uncache_note c p).1.tags t =
      if t ∈ e.tags then (tagSet c.tags t).erase p else tagSet c.tags t) := by
  obtain ⟨hnd1, hnd2, hinv3, hinv4, hinv5, hinv6⟩ := hc
  have h5 := hinv5 _ (mem_of_alookup_eq_some h)
  have hrt := removeFromTags_ok h5.2.1 h5.2.2
  rw [uncache_note_consistent_spec ⟨hnd1, hnd2, hinv3, hinv4, hinv5, hinv6⟩ h]
  refine ⟨rfl, alookup_aerase_self hnd2, ?_, ?_,
    fun q hq => alookup_aerase_ne _ hq, hrt.2⟩
  · intro n q hl hq
    subst hq
    have h₃ := hinv3 _ (mem_aerase (mem_of_alookup_eq_some hl))
    rw [h] at h₃
    simp at h₃
    rw [← h₃] at hl
    rw [alookup_aerase_self hnd1] at hl
    cases hl
  · intro t
    rw [hrt.2 t]
    by_cases ht : t ∈ e.tags
    · rw [if_pos ht]
      intro hmem
      have hs : (tagSet c.tags t).Nodup := by
        unfold tagSet
        cases hl : alookup c.tags t with
        | none => simp
        | some s => simpa using hinv6 _ (mem_of_alookup_eq_some hl)
      exact absurd ((hs.mem_erase_iff).mp hmem).1 (by simp)
    · rw [if_neg ht]
      intro hmem
      unfold tagSet at hmem
      cases hl : alookup c.tags t with
      | none => rw [hl] at hmem; cases hmem
      | some s =>
        rw [hl] at hmem
        have h₂ := hinv4 _ (mem_of_alookup_eq_some hl) p hmem
        unfold noteTags at h₂
        rw [h] at h₂
        simp at h₂
        exact ht h₂

theorem mem_tagSet_diffTags_inv {m : List (String × List String)}
    {prev tags : List String} {p x t : String}
    (h : x ∈ tagSet (diffTags m prev tags p).1 t) : x ∈ tagSet m t := by
  induction prev generalizing m with
  | nil => simpa [diffTags] using h
  | cons t₁ rest ih =>
    unfold diffTags at h
    by_cases h₁ : t₁ ∈ tags
    · rw [if_pos h₁] at h
      exact ih h
    · rw [if_neg h₁] at h
      unfold setRemove at h
      by_cases h₂ : p ∈ tagSet m t₁
      · rw [if_pos h₂] at h
        have h₃ := ih h
        by_cases h₄ : t = t₁
        · subst h₄
          rw [tagSet_ainsert_self] at h₃
          exact List.mem_of_mem_erase h₃
        · rw [tagSet_ainsert_ne _ _ h₄] at h₃
          exact h₃
      · rw [if_neg h₂] at h
        by_cases h₄ : t = t₁
        · subst h₄
          have h₅ : x ∈ tagSet (ainsert m t (tagSet m t)) t := h
          rw [tagSet_ainsert_self] at h₅
          exact h₅
        · have h₅ : x ∈ tagSet (ainsert m t₁ (tagSet m t₁)) t := h
          rw [tagSet_ainsert_ne _ _ h₄] at h₅
          exact h₅

theorem diffTags_ok_of_entry {c : Cache} (hcons : Consistent c) {q : String}
    {T : List String} {m : List (String × List String)}
    (hmem : ∀ t, q ∈ tagSet c.tags t → q ∈ tagSet m t) :
    (diffTags m (noteTags c.notes q) T q).2 = none := by
  cases hl : alookup c.notes q with
  | none =>
    have hpt : noteTags c.notes q = [] := by
      unfold noteTags
      rw [hl]
      rfl
    rw [hpt]
    rfl
  | some e₂ =>
    have h5 := hcons.2.2.2.2.1 _ (mem_of_alookup_eq_some hl)
    have hpt : noteTags c.notes q = e₂.tags := by
      unfold noteTags
      rw [hl]
      rfl
    rw [hpt]
    exact (diffTags_ok h5.2.1 (fun t ht _ => hmem t (h5.2.2 t ht))).1

theorem cacheNoteUpdate_refs {c₁ : Cache} {fs₁ : FS} {p q N : String}
    {T : List String}
    (hqp : q ≠ p)
    (hnp : alookup c₁.notes p = none)
    (hnames : ∀ n q₂, alookup c₁.names n = some q₂ → q₂ ≠ p)
    (htags : ∀ t, p ∉ tagSet c₁.tags t)
    (hdiff : (diffTags c₁.tags (noteTags c₁.notes q) T q).2 = none) :
    (cacheNoteUpdate c₁ fs₁ N T q).err = none ∧
    (cacheNoteUpdate c₁ fs₁ N T q).ret = some q ∧
    (cacheNoteUpdate c₁ fs₁ N T q).fs = fs₁ ∧
    alookup (cacheNoteUpdate c₁ fs₁ N T q).cache.notes p = none ∧
    (∀ n q₂, alookup (cacheNoteUpdate c₁ fs₁ N T q).cache.names n = some q₂ → q₂ ≠ p) ∧
    (∀ t, p ∉ tagSet (cacheNoteUpdate c₁ fs₁ N T q).cache.tags t) ∧
    alookup (cacheNoteUpdate c₁ fs₁ N T q).cache.names N = some q ∧
    alookup (cacheNoteUpdate c₁ fs₁ N T q).cache.notes q = some ⟨N, T⟩ := by
  rw [cacheNoteUpdate_ok hdiff]
  refine ⟨rfl, rfl, rfl, ?_, ?_, ?_,
    alookup_ainsert_self _ _ _, alookup_ainsert_self _ _ _⟩
  · rw [alookup_ainsert_ne _ _ (Ne.symm hqp)]
    exact hnp
  · intro n q₂ hl
    by_cases hn : n = N
    · subst hn
      rw [alookup_ainsert_self] at hl
      injection hl with hl₁
      rw [← hl₁]
      exact hqp
    · rw [alookup_ainsert_ne _ _ hn] at hl
      exact hnames n q₂ hl
  · intro t hmem
    rcases mem_tagSet_addTags_inv hmem with h₁ | h₁
    · exact hqp h₁.symm
    · exact htags t (mem_tagSet_diffTags_inv h₁)

/-! ## Claim C6 -/

/-- Claim C6 (amended): the canonical path is the deterministic pure
function of the name (`get_note_path_for_note_name`), and when `cache_note`
parses a note whose current path differs from it, the file is relocated to
the canonical path and — provided the index is consistent — the old entry
(if any) is removed and afterwards the index references only the new path:
`notes` has no key for the old path, no `names` binding and no tag set
mentions it, while the name and entry sit at the canonical path. -/
theorem C6_rename_on_write (cfg : Config) (c : Cache) (fs : FS)
    (p content N : String) (T : List String)
    (hfs : alookup fs p = some content)
    (hN : extract_note_name content = .ok N)
    (hT : extract_note_tags content = .ok T)
    (hne : get_note_path_for_note_name cfg N ≠ p)
    (hcons : Consistent c) :
    (cache_note cfg c fs p).err = none ∧
    (cache_note cfg c fs p).ret = some (get_note_path_for_note_name cfg N) ∧
    (cache_note cfg c fs p).fs =
      fsRename fs p (get_note_path_for_note_name cfg N) content ∧
    alookup (cache_note cfg c fs p).cache.notes p = none ∧
    (∀ n q₂, alookup (cache_note cfg c fs p).cache.names n = some q₂ → q₂ ≠ p) ∧
    (∀ t, p ∉ tagSet (cache_note cfg c fs p).cache.tags t) ∧
    alookup (cache_note cfg c fs p).cache.names N =
      some (get_note_path_for_note_name cfg N) ∧
    alookup (cache_note cfg c fs p).cache.notes
      (get_note_path_for_note_name cfg N) = some ⟨N, T⟩ := by
  cases hp : alookup c.notes p with
  | none =>
    have hu := uncache_note_not_indexed hp
    have hrefs := consistent_no_refs hcons hp
    rw [cache_note_parsed_ne hfs hN hT hne hu]
    exact cacheNoteUpdate_refs hne hp hrefs.1 hrefs.2
      (diffTags_ok_of_entry hcons (fun t h => h))
  | some e₀ =>
    have hclr := uncache_clears hcons hp
    have hu : uncache_note c p = ((uncache_note c p).1, none) := by
      rw [← hclr.1]
    rw [cache_note_parsed_ne hfs hN hT hne hu]
    have hnoteq : noteTags (uncache_note c p).1.notes (get_note_path_for_note_name cfg N) =
        noteTags c.notes (get_note_path_for_note_name cfg N) := by
      unfold noteTags
      rw [hclr.2.2.2.2.1 _ hne]
    have hdiff : (diffTags (uncache_note c p).1.tags
        (noteTags (uncache_note c p).1.notes (get_note_path_for_note_name cfg N)) T
        (get_note_path_for_note_name cfg N)).2 = none := by
      rw [hnoteq]
      refine diffTags_ok_of_entry hcons (fun t hqmem => ?_)
      rw [hclr.2.2.2.2.2 t]
      by_cases ht : t ∈ e₀.tags
      · rw [if_pos ht]
        exact (List.mem_erase_of_ne hne).mpr hqmem
      · rw [if_neg ht]
        exact hqmem
    exact cacheNoteUpdate_refs hne hclr.2.1 hclr.2.2.1 hclr.2.2.2.1 hdiff

def contentBarBaz : String := "## Bar Baz\n#t\nbody\n"

def pathFoo : String := "foo.md"

def fsFoo : FS := [(pathFoo, contentBarBaz)]

/-- Claim C6 witness: the note at foo.md named "Bar Baz" is relocated to
bar_baz.md and only the new path is referenced. -/
theorem C6_rename_on_write_witness :
    (cache_note cfgStd emptyCache fsFoo pathFoo).err = none ∧
    (cache_note cfgStd emptyCache fsFoo pathFoo).ret =
      some (get_note_path_for_note_name cfgStd ("Bar Baz")) ∧
    (cache_note cfgStd emptyCache fsFoo pathFoo).fs =
      fsRename fsFoo pathFoo (get_note_path_for_note_name cfgStd ("Bar Baz"))
        contentBarBaz ∧
    alookup (cache_note cfgStd emptyCache fsFoo pathFoo).cache.notes pathFoo = none ∧
    (∀ n q₂, alookup (cache_note cfgStd emptyCache fsFoo pathFoo).cache.names n =
      some q₂ → q₂ ≠ pathFoo) ∧
    (∀ t, pathFoo ∉ tagSet (cache_note cfgStd emptyCache fsFoo pathFoo).cache.tags t) ∧
    alookup (cache_note cfgStd emptyCache fsFoo pathFoo).cache.names ("Bar Baz") =
      some (get_note_path_for_note_name cfgStd ("Bar Baz")) ∧
    alookup (cache_note cfgStd emptyCache fsFoo pathFoo).cache.notes
      (get_note_path_for_note_name cfgStd ("Bar Baz")) = some ⟨"Bar Baz", ["t"]⟩ :=
  C6_rename_on_write cfgStd emptyCache fsFoo pathFoo contentBarBaz ("Bar Baz") ["t"]
    (by decide) (by decide) (by decide) (by decide) (by decide)

/-! ## Claim C10 -/

theorem cache_note_missing {cfg : Config} {c : Cache} {fs : FS} {p : String}
    (h : alookup fs p = none) :
    cache_note cfg c fs p = ⟨(uncache_note c p).1, fs, (uncache_note c p).2, none⟩ := by
  unfold cache_note
  rw [h]

theorem cache_note_name_error {cfg : Config} {c : Cache} {fs : FS}
    {p content : String} {e : CacheError}
    (hfs : alookup fs p = some content)
    (hn : extract_note_name content = .error e) :
    cache_note cfg c fs p = ⟨c, fs, some e, none⟩ := by
  simp only [cache_note, hfs, hn]

theorem cache_note_tags_error {cfg : Config} {c : Cache} {fs : FS}
    {p content N : String} {e : CacheError}
    (hfs : alookup fs p = some content)
    (hn : extract_note_name content = .ok N)
    (ht : extract_note_tags content = .error e) :
    cache_note cfg c fs p = ⟨c, fs, some e, none⟩ := by
  simp only [cache_note, hfs, hn, ht]

/-- The operations the index exposes, together with the external file
edits and deletions that may happen between calls (the index never watches
the filesystem). -/
inductive Op where
  | cacheOp (path : String)
  | uncacheOp (path : String)
  | editOp (path content : String)
  | deleteOp (path : String)
deriving DecidableEq, Repr

/-- Run one operation on an index-and-filesystem pair. -/
def runOp (cfg : Config) (s : Cache × FS) : Op → Cache × FS
  | .cacheOp p => ((cache_note cfg s.1 s.2 p).cache, (cache_note cfg s.1 s.2 p).fs)
  | .uncacheOp p => ((uncache_note s.1 p).1, s.2)
  | .editOp p content => (s.1, ainsert s.2 p content)
  | .deleteOp p => (s.1, aerase s.2 p)

/-- Run a sequence of operations from a starting state. -/
def runOps (cfg : Config) (s : Cache × FS) : List Op → Cache × FS
  | [] => s
  | op :: ops => runOps cfg (runOp cfg s op) ops

/-- Every `names` binding maps a name to exactly the canonical path that
`get_note_path_for_note_name` computes for it. -/
def NamesCanonical (cfg : Config) (c : Cache) : Prop :=
  ∀ pr ∈ c.names, pr.2 = get_note_path_for_note_name cfg pr.1

theorem uncache_names_sub {c : Cache} {p : String} {pr : String × String}
    (h : pr ∈ (uncache_note c p).1.names) : pr ∈ c.names := by
  unfold uncache_note at h
  split at h
  · exact h
  · split at h
    · exact h
    · split at h
      · exact mem_aerase h
      · exact mem_aerase h

theorem uncache_namesCanonical {cfg : Config} {c : Cache} {p : String}
    (h : NamesCanonical cfg c) : NamesCanonical cfg (uncache_note c p).1 :=
  fun pr hpr => h pr (uncache_names_sub hpr)

theorem cacheNoteUpdate_namesCanonical {cfg : Config} {c : Cache} {fs : FS}
    {N : String} {T : List String} (h : NamesCanonical cfg c) :
    NamesCanonical cfg
      (cacheNoteUpdate c fs N T (get_note_path_for_note_name cfg N)).cache := by
  unfold cacheNoteUpdate
  cases hd : diffTags c.tags (noteTags c.notes (get_note_path_for_note_name cfg N)) T
      (get_note_path_for_note_name cfg N) with
  | mk tg er =>
    cases er with
    | some e₁ =>
      intro pr hpr
      rcases mem_ainsert hpr with h₁ | h₁
      · rw [h₁]
      · exact h pr h₁
    | none =>
      intro pr hpr
      rcases mem_ainsert hpr with h₁ | h₁
      · rw [h₁]
      · exact h pr h₁

theorem cache_note_namesCanonical {cfg : Config} {c : Cache} {fs : FS}
    {p : String} (h : NamesCanonical cfg c) :
    NamesCanonical cfg (cache_note cfg c fs p).cache := by
  cases hfs : alookup fs p with
  | none =>
    rw [cache_note_missing hfs]
    exact uncache_namesCanonical h
  | some content =>
    cases hn : extract_note_name content with
    | error e₁ =>
      rw [cache_note_name_error hfs hn]
      exact h
    | ok N =>
      cases ht : extract_note_tags content with
      | error e₁ =>
        rw [cache_note_tags_error hfs hn ht]
        exact h
      | ok T =>
        by_cases hne : get_note_path_for_note_name cfg N ≠ p
        · cases hu : uncache_note c p with
          | mk c₁ e =>
            have h₁ := @uncache_namesCanonical cfg c p h
            rw [hu] at h₁
            cases e with
            | some e₁ =>
              rw [cache_note_parsed_ne_err hfs hn ht hne hu]
              exact h₁
            | none =>
              rw [cache_note_parsed_ne hfs hn ht hne hu]
              exact cacheNoteUpdate_namesCanonical h₁
        · rw [not_not] at hne
          rw [cache_note_parsed_eq hfs hn ht hne, ← hne]
          exact cacheNoteUpdate_namesCanonical h

theorem runOp_namesCanonical {cfg : Config} {s : Cache × FS} {op : Op}
    (h : NamesCanonical cfg s.1) : NamesCanonical cfg (runOp cfg s op).1 := by
  cases op with
  | cacheOp p => exact cache_note_namesCanonical h
  | uncacheOp p => exact uncache_namesCanonical h
  | editOp p content => exact h
  | deleteOp p => exact h

theorem runOps_namesCanonical {cfg : Config} {s : Cache × FS} {ops : List Op}
    (h : NamesCanonical cfg s.1) : NamesCanonical cfg (runOps cfg s ops).1 := by
  induction ops generalizing s with
  | nil => exact h
  | cons op rest ih => exact ih (runOp_namesCanonical h)

/-- Claim C10: starting from an empty index, after every sequence of
`cache_note` and `uncache_note` operations (with arbitrary external file
edits and deletions in between), every entry of `names` maps its name to
exactly the canonical path `get_note_path_for_note_name` computes — a
non-canonical path never appears as a `names` value. -/
theorem C10_names_canonical (cfg : Config) (fs₀ : FS) (ops : List Op) :
    NamesCanonical cfg (runOps cfg (emptyCache, fs₀) ops).1 :=
  runOps_namesCanonical (by intro pr hpr; cases hpr)

/-- The duplicate-tag note, edited in place to carry a new name that
resolves to a different canonical path. -/
def fsRenameEdit : FS := [(pathX, "## Y\n#t\n")]

/-- Claim C6 counterexample: from the reachable duplicate-tag state, a
rename-triggering edit makes `cache_note` relocate the file (the old path
is gone from the filesystem) but the implicit removal of the old entry
raises `KeyError` partway, so `notes` still references the old path — the
claim's "the old path's index entry is removed, and afterwards the index
references only the new path" fails. -/
theorem C6_counterexample :
    (cache_note cfgStd emptyCache fsDupTag pathX).err = none ∧
    (cache_note cfgStd dupTagCache fsRenameEdit pathX).err = some CacheError.keyError ∧
    alookup (cache_note cfgStd dupTagCache fsRenameEdit pathX).cache.notes pathX ≠ none ∧
    alookup (cache_note cfgStd dupTagCache fsRenameEdit pathX).fs pathX = none := by
  decide
